import Mathlib

/-!
Verification of the identity and batching utility layer of the guac ent
backend (`pkg/assembler/backends/ent/backend/helpers.go`).

Strings are modelled as `List Char`; Go byte slices as `List Nat` with
each byte below 256.  Go's `strings.Split` on the one-character separator
":" coincides with `List.splitOn ':'` (in particular `Split("", ":")`
is `[""]`, matching `[].splitOn ':' = [[]]`).
-/

namespace Guac

/-! ### The node model used by `getIDfromNode`

Only the fields that `getIDfromNode` reads are modelled: the `ID` field of
every entity and the nested collections `Namespaces`/`Names`/`Versions` of
`Package`, `Namespaces`/`Names` of `Source`, and `VulnerabilityIDs` of
`Vulnerability`.  A Go pointer that may be nil is an `Option`; dereferencing
a nil pointer is a runtime panic, modelled by `NodeIDResult.panicked`. -/

/-! ### The batching utility `chunk` -/

/-! ### The predicate builder -/

/-! ### Content-addressed ID generation

`generateUUIDKey(data)` is `uuid.NewHash(sha256.New(), uuid.NameSpaceDNS,
data, 5)`: the SHA-256 digest of the namespace bytes followed by the data,
truncated to 16 bytes, with the version nibble of byte 6 set to 5 and the
variant bits of byte 8 set to RFC 4122.  SHA-256 is embedded in full over
`List Nat` bytes, words being `Nat` reduced modulo `2 ^ 32`. -/

/-- The result of decoding a global ID: the struct `globalID` of the source,
with fields `nodeType` and `id`. -/
structure globalID where
  nodeType : List Char
  id : List Char
deriving DecidableEq, Repr

/-- `toGlobalID` of the source: `strings.Join([]string{nodeType, id}, ":")`,
i.e. the node type, the separator ":", then the local id. -/
def toGlobalID (nodeType : List Char) (id : List Char) : List Char :=
  nodeType ++ [':'] ++ id

/-- `fromGlobalID` of the source: split the string on every occurrence of
":"; when the split has exactly two parts they are the node type and the
local id, otherwise the node type is empty and the local id is the first
part of the split.  Go indexes `idSplit[0]` and `idSplit[1]` directly; an
out-of-range index would be a runtime panic, modelled as `none`. -/
def fromGlobalID (gID : List Char) : Option globalID :=
  let idSplit := gID.splitOn ':'
  if idSplit.length = 2 then
    match idSplit with
    | t :: i :: _ => some { nodeType := t, id := i }
    | _ => none
  else
    match idSplit with
    | i :: _ => some { nodeType := [], id := i }
    | [] => none

structure PackageVersion where
  id : List Char
deriving DecidableEq, Repr

structure PackageName where
  id : List Char
  versions : List PackageVersion
deriving DecidableEq, Repr

structure PackageNamespace where
  id : List Char
  names : List PackageName
deriving DecidableEq, Repr

structure Package where
  id : List Char
  namespaces : List PackageNamespace
deriving DecidableEq, Repr

structure SourceName where
  id : List Char
deriving DecidableEq, Repr

structure SourceNamespace where
  id : List Char
  names : List SourceName
deriving DecidableEq, Repr

structure Source where
  id : List Char
  namespaces : List SourceNamespace
deriving DecidableEq, Repr

structure VulnerabilityID where
  id : List Char
deriving DecidableEq, Repr

structure Vulnerability where
  id : List Char
  vulnerabilityIDs : List VulnerabilityID
deriving DecidableEq, Repr

/-- An entity whose `getIDfromNode` case is just `return v.ID, nil`:
Artifact, Builder, License and the relationship/attestation kinds.  Only the
`ID` field is read by the code under verification. -/
structure FlatEntity where
  id : List Char
deriving DecidableEq, Repr

/-- The `model.Node` interface value passed to `getIDfromNode`, one
constructor per `case` of the source's type switch (each carrying a possibly
nil pointer), plus `unknownNode` for any variant outside the known set,
carrying the formatted value that `fmt.Errorf` would interpolate. -/
inductive Node where
  | package : Option Package → Node
  | artifact : Option FlatEntity → Node
  | builder : Option FlatEntity → Node
  | source : Option Source → Node
  | vulnerability : Option Vulnerability → Node
  | license : Option FlatEntity → Node
  | certifyBad : Option FlatEntity → Node
  | certifyGood : Option FlatEntity → Node
  | certifyLegal : Option FlatEntity → Node
  | certifyScorecard : Option FlatEntity → Node
  | certifyVEXStatement : Option FlatEntity → Node
  | certifyVuln : Option FlatEntity → Node
  | hashEqual : Option FlatEntity → Node
  | hasMetadata : Option FlatEntity → Node
  | hasSbom : Option FlatEntity → Node
  | hasSlsa : Option FlatEntity → Node
  | hasSourceAt : Option FlatEntity → Node
  | isDependency : Option FlatEntity → Node
  | isOccurrence : Option FlatEntity → Node
  | pkgEqual : Option FlatEntity → Node
  | pointOfContact : Option FlatEntity → Node
  | vulnEqual : Option FlatEntity → Node
  | vulnerabilityMetadata : Option FlatEntity → Node
  | unknownNode : List Char → Node
deriving DecidableEq, Repr

/-- Outcome of `getIDfromNode`: an id with nil error, a non-nil error, or a
runtime panic (nil-pointer dereference). -/
inductive NodeIDResult where
  | ok : List Char → NodeIDResult
  | err : List Char → NodeIDResult
  | panicked : NodeIDResult
deriving DecidableEq, Repr

/-- The body `return v.ID, nil` shared by every flat case of the type
switch; on a nil pointer the field access panics. -/
def flatID (v : Option FlatEntity) : NodeIDResult :=
  match v with
  | some e => NodeIDResult.ok e.id
  | none => NodeIDResult.panicked

/-- `getIDfromNode` of the source, case by case.  For `Package` the Go chain
is: if `v != nil` and namespaces, names and versions are all non-empty,
return the first version's ID; else if `v != nil` with non-empty namespaces
and names, the first name's ID; else if `v != nil` with non-empty
namespaces, the first namespace's ID; else `v.ID` — which panics when `v`
is nil.  `Source` is the two-level analogue.  For `Vulnerability` the code
reads `v.VulnerabilityIDs` without a nil check, so a nil pointer panics.
The default case returns the error `unknown type: <value>`. -/
def getIDfromNode (node : Node) : NodeIDResult :=
  match node with
  | Node.package v =>
      match v with
      | some p =>
          match p.namespaces with
          | ns :: _ =>
              match ns.names with
              | nm :: _ =>
                  match nm.versions with
                  | ver :: _ => NodeIDResult.ok ver.id
                  | [] => NodeIDResult.ok nm.id
              | [] => NodeIDResult.ok ns.id
          | [] => NodeIDResult.ok p.id
      | none => NodeIDResult.panicked
  | Node.artifact v => flatID v
  | Node.builder v => flatID v
  | Node.source v =>
      match v with
      | some s =>
          match s.namespaces with
          | ns :: _ =>
              match ns.names with
              | nm :: _ => NodeIDResult.ok nm.id
              | [] => NodeIDResult.ok ns.id
          | [] => NodeIDResult.ok s.id
      | none => NodeIDResult.panicked
  | Node.vulnerability v =>
      match v with
      | some vu =>
          match vu.vulnerabilityIDs with
          | vid :: _ => NodeIDResult.ok vid.id
          | [] => NodeIDResult.ok vu.id
      | none => NodeIDResult.panicked
  | Node.license v => flatID v
  | Node.certifyBad v => flatID v
  | Node.certifyGood v => flatID v
  | Node.certifyLegal v => flatID v
  | Node.certifyScorecard v => flatID v
  | Node.certifyVEXStatement v => flatID v
  | Node.certifyVuln v => flatID v
  | Node.hashEqual v => flatID v
  | Node.hasMetadata v => flatID v
  | Node.hasSbom v => flatID v
  | Node.hasSlsa v => flatID v
  | Node.hasSourceAt v => flatID v
  | Node.isDependency v => flatID v
  | Node.isOccurrence v => flatID v
  | Node.pkgEqual v => flatID v
  | Node.pointOfContact v => flatID v
  | Node.vulnEqual v => flatID v
  | Node.vulnerabilityMetadata v => flatID v
  | Node.unknownNode s => NodeIDResult.err ("unknown type: ".toList ++ s)

/-- Written from the spec's words: "the most specific non-empty level wins"
for a Package — Version beneath Name beneath Namespace, else Name, else
Namespace, else the Package itself. -/
def mostSpecificPackageID (p : Package) : List Char :=
  match p.namespaces with
  | [] => p.id
  | ns :: _ =>
      match ns.names with
      | [] => ns.id
      | nm :: _ =>
          match nm.versions with
          | [] => nm.id
          | ver :: _ => ver.id

/-- `true` exactly when the node carries a nil pointer of a known variant. -/
def hasNilPayload (n : Node) : Bool :=
  match n with
  | Node.package none => true
  | Node.artifact none => true
  | Node.builder none => true
  | Node.source none => true
  | Node.vulnerability none => true
  | Node.license none => true
  | Node.certifyBad none => true
  | Node.certifyGood none => true
  | Node.certifyLegal none => true
  | Node.certifyScorecard none => true
  | Node.certifyVEXStatement none => true
  | Node.certifyVuln none => true
  | Node.hashEqual none => true
  | Node.hasMetadata none => true
  | Node.hasSbom none => true
  | Node.hasSlsa none => true
  | Node.hasSourceAt none => true
  | Node.isDependency none => true
  | Node.isOccurrence none => true
  | Node.pkgEqual none => true
  | Node.pointOfContact none => true
  | Node.vulnEqual none => true
  | Node.vulnerabilityMetadata none => true
  | _ => false

/-- `chunksNum` as computed by the source: `len/size`, plus one when the
division leaves a remainder. -/
def numChunks (n : Nat) (sz : Nat) : Nat :=
  n / sz + (if n % sz ≠ 0 then 1 else 0)

/-- `chunk` of the source.  `size` is a Go `int`; a non-positive size hits
`panic("Second parameter must be greater than 0")`, modelled as `none`.
Otherwise the loop appends `collection[i*size : last]` for each
`i < chunksNum`, where `last` is `(i+1)*size` capped at the length; the Go
slice `collection[a:b]` is `(collection.drop a).take (b - a)`. -/
def chunk {α : Type} (collection : List α) (size : Int) : Option (List (List α)) :=
  if size ≤ 0 then none
  else
    let sz := size.toNat
    let n := collection.length
    some ((List.range (numChunks n sz)).map fun i =>
      (collection.drop (i * sz)).take (min ((i + 1) * sz) n - i * sz))

/-- `NoOpSelector` of the source: a selector predicate whose body does
nothing.  A Go `func(*sql.Selector)` mutating its argument in place is
modelled as a function from selector state to selector state, so the
do-nothing body is the identity. -/
def NoOpSelector {S : Type} : S → S := fun s => s

/-- `optionalPredicate` of the source: on a nil value return
`NoOpSelector()` without calling `fn`; on a non-nil value return `fn`
applied to the dereferenced value. -/
def optionalPredicate {S T : Type} (value : Option T) (fn : T → S → S) : S → S :=
  match value with
  | none => NoOpSelector
  | some v => fn v

/-- Right rotation of a 32-bit word. -/
def rotr32 (n : Nat) (x : Nat) : Nat :=
  ((x >>> n) ||| (x <<< (32 - n))) % 2 ^ 32

/-- Bitwise complement of a 32-bit word. -/
def compl32 (x : Nat) : Nat := x ^^^ (2 ^ 32 - 1)

/-- The SHA-256 choice function `Ch(x,y,z)`. -/
def shaCh (x y z : Nat) : Nat := (x &&& y) ^^^ (compl32 x &&& z)

/-- The SHA-256 majority function `Maj(x,y,z)`. -/
def shaMaj (x y z : Nat) : Nat := (x &&& y) ^^^ (x &&& z) ^^^ (y &&& z)

/-- The SHA-256 compression sigma functions. -/
def bigSigma0 (x : Nat) : Nat := rotr32 2 x ^^^ rotr32 13 x ^^^ rotr32 22 x

def bigSigma1 (x : Nat) : Nat := rotr32 6 x ^^^ rotr32 11 x ^^^ rotr32 25 x

/-- The SHA-256 message-schedule sigma functions. -/
def smallSigma0 (x : Nat) : Nat := rotr32 7 x ^^^ rotr32 18 x ^^^ (x >>> 3)

def smallSigma1 (x : Nat) : Nat := rotr32 17 x ^^^ rotr32 19 x ^^^ (x >>> 10)

/-- The 64 SHA-256 round constants, written in decimal
(`0x428a2f98 = 1116352408` and so on, FIPS 180-4 order). -/
def sha256K : List Nat :=
  [1116352408, 1899447441, 3049323471, 3921009573,
   961987163, 1508970993, 2453635748, 2870763221,
   3624381080, 310598401, 607225278, 1426881987,
   1925078388, 2162078206, 2614888103, 3248222580,
   3835390401, 4022224774, 264347078, 604807628,
   770255983, 1249150122, 1555081692, 1996064986,
   2554220882, 2821834349, 2952996808, 3210313671,
   3336571891, 3584528711, 113926993, 338241895,
   666307205, 773529912, 1294757372, 1396182291,
   1695183700, 1986661051, 2177026350, 2456956037,
   2730485921, 2820302411, 3259730800, 3345764771,
   3516065817, 3600352804, 4094571909, 275423344,
   430227734, 506948616, 659060556, 883997877,
   958139571, 1322822218, 1537002063, 1747873779,
   1955562222, 2024104815, 2227730452, 2361852424,
   2428436474, 2756734187, 3204031479, 3329325298]

/-- Eight 32-bit words: the SHA-256 hash state and working variables. -/
structure Words8 where
  w0 : Nat
  w1 : Nat
  w2 : Nat
  w3 : Nat
  w4 : Nat
  w5 : Nat
  w6 : Nat
  w7 : Nat
deriving DecidableEq, Repr

/-- The SHA-256 initial hash value, in decimal
(`0x6a09e667 = 1779033703` and so on). -/
def shaInit : Words8 :=
  ⟨1779033703, 3144134277, 1013904242, 2773480762,
   1359893119, 2600822924, 528734635, 1541459225⟩

/-- SHA-256 padding: append `0x80`, zeros up to 56 bytes mod 64, then the
bit length as a 64-bit big-endian integer. -/
def shaPad (msg : List Nat) : List Nat :=
  let len := msg.length
  let zeros := (119 - len % 64) % 64
  let bitLen := len * 8
  msg ++ 0x80 :: List.replicate zeros 0 ++
    [bitLen / 2 ^ 56 % 256, bitLen / 2 ^ 48 % 256, bitLen / 2 ^ 40 % 256,
     bitLen / 2 ^ 32 % 256, bitLen / 2 ^ 24 % 256, bitLen / 2 ^ 16 % 256,
     bitLen / 2 ^ 8 % 256, bitLen % 256]

/-- Split a byte list into 64-byte blocks. -/
def toBlocks (l : List Nat) : List (List Nat) :=
  if h : l = [] then []
  else l.take 64 :: toBlocks (l.drop 64)
termination_by l.length
decreasing_by
  simp only [List.length_drop]
  have : 0 < l.length := List.length_pos.mpr h
  omega

/-- Word `i` of a 64-byte block, big-endian. -/
def shaWord (bl : List Nat) (i : Nat) : Nat :=
  bl.getD (4 * i) 0 * 2 ^ 24 + bl.getD (4 * i + 1) 0 * 2 ^ 16 +
    bl.getD (4 * i + 2) 0 * 2 ^ 8 + bl.getD (4 * i + 3) 0

/-- Extend the message schedule by `n` further words. -/
def extendSchedule : Nat → List Nat → List Nat
  | 0, w => w
  | n + 1, w =>
      let len := w.length
      let next := (smallSigma1 (w.getD (len - 2) 0) + w.getD (len - 7) 0 +
        smallSigma0 (w.getD (len - 15) 0) + w.getD (len - 16) 0) % 2 ^ 32
      extendSchedule n (w ++ [next])

/-- The 64-word message schedule of a block. -/
def shaSchedule (bl : List Nat) : List Nat :=
  extendSchedule 48 ((List.range 16).map (shaWord bl))

/-- One block of SHA-256 compression over a 64-word schedule. -/
def shaCompress (hv : Words8) (w : List Nat) : Words8 :=
  let fin := (List.range 64).foldl
    (fun st t =>
      let t1 := (st.w7 + bigSigma1 st.w4 + shaCh st.w4 st.w5 st.w6 +
        sha256K.getD t 0 + w.getD t 0) % 2 ^ 32
      let t2 := (bigSigma0 st.w0 + shaMaj st.w0 st.w1 st.w2) % 2 ^ 32
      ⟨(t1 + t2) % 2 ^ 32, st.w0, st.w1, st.w2,
       (st.w3 + t1) % 2 ^ 32, st.w4, st.w5, st.w6⟩)
    hv
  ⟨(hv.w0 + fin.w0) % 2 ^ 32, (hv.w1 + fin.w1) % 2 ^ 32,
   (hv.w2 + fin.w2) % 2 ^ 32, (hv.w3 + fin.w3) % 2 ^ 32,
   (hv.w4 + fin.w4) % 2 ^ 32, (hv.w5 + fin.w5) % 2 ^ 32,
   (hv.w6 + fin.w6) % 2 ^ 32, (hv.w7 + fin.w7) % 2 ^ 32⟩

/-- Big-endian bytes of a 32-bit word. -/
def wordBytes (w : Nat) : List Nat :=
  [w / 2 ^ 24 % 256, w / 2 ^ 16 % 256, w / 2 ^ 8 % 256, w % 256]

/-- The 32 digest bytes of a final hash state. -/
def digestBytes (hv : Words8) : List Nat :=
  wordBytes hv.w0 ++ wordBytes hv.w1 ++ wordBytes hv.w2 ++ wordBytes hv.w3 ++
    wordBytes hv.w4 ++ wordBytes hv.w5 ++ wordBytes hv.w6 ++ wordBytes hv.w7

/-- SHA-256 of a byte sequence. -/
def sha256 (msg : List Nat) : List Nat :=
  digestBytes ((toBlocks (shaPad msg)).foldl
    (fun hv bl => shaCompress hv (shaSchedule bl)) shaInit)

/-- The bytes of `uuid.NameSpaceDNS`,
`6ba7b810-9dad-11d1-80b4-00c04fd430c8`. -/
def nameSpaceDNS : List Nat :=
  [0x6b, 0xa7, 0xb8, 0x10, 0x9d, 0xad, 0x11, 0xd1,
   0x80, 0xb4, 0x00, 0xc0, 0x4f, 0xd4, 0x30, 0xc8]

/-- The tail of `uuid.NewHash`: copy the first 16 digest bytes, then set
the version nibble of byte 6 to the version argument `5` and the variant
bits of byte 8 to RFC 4122.  The digest always has 32 bytes, so the
fallback branch is unreachable. -/
def uuidFromDigest (s : List Nat) : List Nat :=
  match s with
  | b0 :: b1 :: b2 :: b3 :: b4 :: b5 :: b6 :: b7 ::
      b8 :: b9 :: b10 :: b11 :: b12 :: b13 :: b14 :: b15 :: _ =>
      [b0, b1, b2, b3, b4, b5, (b6 &&& 0x0f) ||| (5 <<< 4), b7,
       (b8 &&& 0x3f) ||| 0x80, b9, b10, b11, b12, b13, b14, b15]
  | _ => []

/-- `generateUUIDKey` of the source:
`uuid.NewHash(sha256.New(), uuid.NameSpaceDNS, data, 5)` — the hash state
receives the namespace bytes, then the data, and the digest is turned into
a version-5-tagged UUID. -/
def generateUUIDKey (data : List Nat) : List Nat :=
  uuidFromDigest (sha256 (nameSpaceDNS ++ data))


/-! ### Theorems -/

/-- A list with no occurrence of the separator splits into itself alone. -/
theorem splitOn_eq_single_of_not_mem {s : List Char} (h : ':' ∉ s) :
    s.splitOn ':' = [s] := by
  apply List.splitOnP_eq_single
  intro x hx
  simp only [beq_iff_eq]
  intro hEq
  exact h (hEq ▸ hx)

/-- Splitting a list of the form `a ++ ':' :: b` where `a` is free of the
separator yields `a` followed by the split of `b`. -/
theorem splitOn_append_cons {a : List Char} (b : List Char) (h : ':' ∉ a) :
    (a ++ ':' :: b).splitOn ':' = a :: b.splitOn ':' := by
  apply List.splitOnP_first
  · intro x hx
    simp only [beq_iff_eq]
    intro hEq
    exact h (hEq ▸ hx)
  · simp

/-- A list containing the separator splits into at least two parts. -/
theorem two_le_length_splitOn {b : List Char} (h : ':' ∈ b) :
    2 ≤ (b.splitOn ':').length := by
  induction b with
  | nil => simp at h
  | cons hd tl ih =>
    by_cases hhd : hd = ':'
    · subst hhd
      have hne := List.splitOnP_ne_nil (fun x => x == ':') tl
      have : 1 ≤ (tl.splitOn ':').length := by
        cases htl : tl.splitOn ':' with
        | nil => exact absurd htl hne
        | cons x xs => simp
      simp only [List.splitOn, List.splitOnP_cons, beq_self_eq_true, if_pos]
      simpa [List.splitOn] using Nat.succ_le_succ this
    · have hmem : ':' ∈ tl := by
        rcases List.mem_cons.mp h with h1 | h2
        · exact absurd h1.symm hhd
        · exact h2
      have := ih hmem
      simp only [List.splitOn, List.splitOnP_cons]
      have hbeq : (hd == ':') = false := by simp [hhd]
      rw [hbeq]
      simpa [List.splitOn, List.length_modifyHead] using this

/-- C1: decoding the result of encoding a (nodeType, localID) pair in which
neither component contains the separator yields back exactly the original
pair. -/
theorem fromGlobalID_toGlobalID (nodeType : List Char) (id : List Char)
    (h1 : ':' ∉ nodeType) (h2 : ':' ∉ id) :
    fromGlobalID (toGlobalID nodeType id) =
      some { nodeType := nodeType, id := id } := by
  have hform : toGlobalID nodeType id = nodeType ++ ':' :: id := by
    simp [toGlobalID]
  have hsplit : (nodeType ++ ':' :: id).splitOn ':' = nodeType :: id.splitOn ':' :=
    splitOn_append_cons id h1
  have hid : id.splitOn ':' = [id] := splitOn_eq_single_of_not_mem h2
  rw [hform]
  simp [fromGlobalID, hsplit, hid]

theorem fromGlobalID_toGlobalID_witness :
    ':' ∉ ['P', 'k', 'g'] ∧ ':' ∉ ['4', '2'] ∧
    fromGlobalID (toGlobalID ['P', 'k', 'g'] ['4', '2']) =
      some { nodeType := ['P', 'k', 'g'], id := ['4', '2'] } :=
  ⟨by decide, by decide,
    fromGlobalID_toGlobalID ['P', 'k', 'g'] ['4', '2'] (by decide) (by decide)⟩

/-- C3 counterexample: on the input "a:b:c", which contains the separator,
decoding does NOT return the text before the first separator paired with the
entire remainder; it returns an empty nodeType with localID "a". -/
theorem fromGlobalID_first_occurrence_counterexample :
    fromGlobalID ['a', ':', 'b', ':', 'c'] =
      some { nodeType := [], id := ['a'] } ∧
    fromGlobalID ['a', ':', 'b', ':', 'c'] ≠
      some { nodeType := ['a'], id := ['b', ':', 'c'] } := by
  constructor
  · decide
  · decide

/-- C3 amended: for an input whose text before the first separator is `a`
and whose remainder is `b`, decoding returns `(a, b)` when `b` is free of
the separator (exactly one occurrence overall); when `b` itself contains
the separator (two or more occurrences overall) decoding instead returns an
empty nodeType together with `a`, the text before the first separator, as
the localID. -/
theorem fromGlobalID_split_amended (a b : List Char) (ha : ':' ∉ a) :
    (':' ∉ b → fromGlobalID (a ++ ':' :: b) =
      some { nodeType := a, id := b }) ∧
    (':' ∈ b → fromGlobalID (a ++ ':' :: b) =
      some { nodeType := [], id := a }) := by
  have hsplit : (a ++ ':' :: b).splitOn ':' = a :: b.splitOn ':' :=
    splitOn_append_cons b ha
  constructor
  · intro hb
    simp [fromGlobalID, hsplit, splitOn_eq_single_of_not_mem hb]
  · intro hb
    have h2 := two_le_length_splitOn hb
    have hlen : ((a ++ ':' :: b).splitOn ':').length ≠ 2 := by
      rw [hsplit]
      simp only [List.length_cons]
      omega
    rw [fromGlobalID]
    simp only [hsplit] at hlen ⊢
    rw [if_neg hlen]

theorem fromGlobalID_split_amended_witness :
    ':' ∉ ['a'] ∧ ':' ∉ ['b'] ∧
    fromGlobalID (['a'] ++ ':' :: ['b']) =
      some { nodeType := ['a'], id := ['b'] } :=
  ⟨by decide, by decide,
    (fromGlobalID_split_amended ['a'] ['b'] (by decide)).1 (by decide)⟩

/-- C4: decoding is total (the source's index accesses never panic, so a
result is always returned) and an input without the separator decodes to an
empty nodeType with the whole input as localID. -/
theorem fromGlobalID_total_graceful (s : List Char) :
    (∃ g, fromGlobalID s = some g) ∧
    (':' ∉ s → fromGlobalID s = some { nodeType := [], id := s }) := by
  constructor
  · rw [fromGlobalID]
    cases hs : s.splitOn ':' with
    | nil => exact absurd hs (List.splitOnP_ne_nil _ s)
    | cons x xs =>
      cases xs with
      | nil => simp
      | cons y ys =>
        by_cases hl : (x :: y :: ys).length = 2
        · simp [hl]
        · simp only [hl, if_false]
          exact ⟨_, rfl⟩
  · intro h
    have hs := splitOn_eq_single_of_not_mem h
    simp [fromGlobalID, hs]

theorem fromGlobalID_total_graceful_witness :
    fromGlobalID ['p', 'l', 'a', 'i', 'n', 'I', 'D'] =
      some { nodeType := [], id := ['p', 'l', 'a', 'i', 'n', 'I', 'D'] } :=
  (fromGlobalID_total_graceful ['p', 'l', 'a', 'i', 'n', 'I', 'D']).2 (by decide)

/-- C5: for every (non-nil) Package node the resolver returns the identifier
of the most specific populated level: the first Version beneath the first
Name beneath the first Namespace when present, else the first Name, else
the first Namespace, else the Package itself. -/
theorem getIDfromNode_package_precedence (p : Package) :
    getIDfromNode (Node.package (some p)) =
      NodeIDResult.ok (mostSpecificPackageID p) := by
  rcases p with ⟨pid, pns⟩
  cases pns with
  | nil => rfl
  | cons ns rest =>
    cases hnames : ns.names with
    | nil => simp [getIDfromNode, mostSpecificPackageID, hnames]
    | cons nm rest2 =>
      cases hvers : nm.versions with
      | nil => simp [getIDfromNode, mostSpecificPackageID, hnames, hvers]
      | cons ver rest3 => simp [getIDfromNode, mostSpecificPackageID, hnames, hvers]

/-- C6: a (non-nil) Vulnerability node with a non-empty `VulnerabilityIDs`
list resolves to the first record's identifier; with an empty list it
resolves to the Vulnerability's own identifier. -/
theorem getIDfromNode_vulnerability_first (v : Vulnerability) :
    getIDfromNode (Node.vulnerability (some v)) =
      NodeIDResult.ok
        (match v.vulnerabilityIDs with
         | [] => v.id
         | vid :: _ => vid.id) := by
  cases hids : v.vulnerabilityIDs with
  | nil => simp [getIDfromNode, hids]
  | cons vid rest => simp [getIDfromNode, hids]

/-- C7 counterexample: a nil-valued instance of the known variant Artifact
crashes the resolver (nil-pointer dereference of `v.ID`), so the claim that
no nil-valued instance of a known variant type causes a crash is false. -/
theorem getIDfromNode_nil_crash_counterexample :
    getIDfromNode (Node.artifact none) = NodeIDResult.panicked := by
  decide

/-- C7 amended: for every input that does not carry a nil pointer of a known
variant, `getIDfromNode` never panics, and a variant outside the known set
yields the `unknown type` error carrying the unmatched value. -/
theorem getIDfromNode_no_crash (n : Node) (h : hasNilPayload n = false) :
    getIDfromNode n ≠ NodeIDResult.panicked ∧
    (∀ s, n = Node.unknownNode s →
      getIDfromNode n = NodeIDResult.err ("unknown type: ".toList ++ s)) := by
  constructor
  · cases n <;>
      first
      | (rename_i v
         cases v with
         | none => simp [hasNilPayload] at h
         | some e =>
             simp only [getIDfromNode, flatID]
             repeat' split
             all_goals simp)
      | simp [getIDfromNode]
  · intro s hs
    subst hs
    rfl

theorem getIDfromNode_no_crash_witness :
    getIDfromNode (Node.unknownNode ['X']) ≠ NodeIDResult.panicked ∧
    getIDfromNode (Node.unknownNode ['X']) =
      NodeIDResult.err ("unknown type: ".toList ++ ['X']) :=
  ⟨(getIDfromNode_no_crash (Node.unknownNode ['X']) (by decide)).1,
   (getIDfromNode_no_crash (Node.unknownNode ['X']) (by decide)).2 ['X'] rfl⟩

/-- The capped-slice expression of the loop body equals a plain
`take size` of the dropped remainder. -/
theorem chunk_group_eq {α : Type} (c : List α) (sz i : Nat) :
    (c.drop (i * sz)).take (min ((i + 1) * sz) c.length - i * sz) =
      (c.drop (i * sz)).take sz := by
  have hm : (i + 1) * sz = i * sz + sz := by ring
  rw [List.take_eq_take, List.length_drop, hm]
  omega

/-- Splitting off one chunk: for a non-empty list the chunk count is one
more than the chunk count of the list with `sz` elements removed. -/
theorem numChunks_succ {n sz : Nat} (hn : 0 < n) (hsz : 0 < sz) :
    numChunks n sz = numChunks (n - sz) sz + 1 := by
  rcases Nat.lt_or_ge n sz with hlt | hge
  · have h1 : n / sz = 0 := Nat.div_eq_of_lt hlt
    have h2 : n % sz = n := Nat.mod_eq_of_lt hlt
    have h3 : n - sz = 0 := by omega
    rw [numChunks, numChunks, h1, h2, h3, if_pos (by omega : n ≠ 0)]
    simp
  · obtain ⟨m, rfl⟩ : ∃ m, n = m + sz := ⟨n - sz, by omega⟩
    simp only [numChunks, Nat.add_sub_cancel, Nat.add_div_right _ hsz,
      Nat.add_mod_right]
    omega

/-- Flattening the chunks recovers the original list. -/
theorem flatten_chunks {α : Type} (sz : Nat) (hsz : 0 < sz) :
    ∀ n (c : List α), c.length = n →
      ((List.range (numChunks c.length sz)).map
        fun i => (c.drop (i * sz)).take sz).flatten = c := by
  intro n
  induction n using Nat.strong_induction_on with
  | _ n ih =>
    intro c hc
    cases c with
    | nil => simp [numChunks]
    | cons x xs =>
      have hpos : 0 < (x :: xs).length := by simp
      rw [numChunks_succ hpos hsz, List.range_succ_eq_map, List.map_cons,
        List.map_map, List.flatten_cons]
      have htail :
          ((List.range (numChunks ((x :: xs).length - sz) sz)).map
            ((fun i => ((x :: xs).drop (i * sz)).take sz) ∘ Nat.succ)).flatten =
          (x :: xs).drop sz := by
        have hlen : ((x :: xs).drop sz).length = (x :: xs).length - sz := by
          simp
        have hrec := ih ((x :: xs).length - sz) (by omega) ((x :: xs).drop sz) hlen
        rw [hlen] at hrec
        rw [← hrec]
        congr 1
        apply List.map_congr_left
        intro i _
        simp only [Function.comp_apply, List.drop_drop]
        congr 2
        simp only [Nat.succ_eq_add_one]
        ring
      rw [htail]
      simp

/-- C8: for every sequence and positive size, `chunk` succeeds and the
result is an order-preserving partition: flattening it gives back the
input, every group except possibly the last has exactly `size` elements,
no group exceeds `size` elements, and the empty sequence yields an empty
result. -/
theorem chunk_partitions {α : Type} (c : List α) (size : Int) (hsz : 0 < size) :
    ∃ r, chunk c size = some r ∧
      r.flatten = c ∧
      r.length = numChunks c.length size.toNat ∧
      (∀ i, (h : i < r.length) → i + 1 < r.length →
        (r.get ⟨i, h⟩).length = size.toNat) ∧
      (∀ g ∈ r, g.length ≤ size.toNat) ∧
      (c = [] → r = []) := by
  have hnp : ¬size ≤ 0 := by omega
  have hszn : 0 < size.toNat := by omega
  have hre : (List.range (numChunks c.length size.toNat)).map
        (fun i => (c.drop (i * size.toNat)).take
          (min ((i + 1) * size.toNat) c.length - i * size.toNat)) =
      (List.range (numChunks c.length size.toNat)).map
        (fun i => (c.drop (i * size.toNat)).take size.toNat) :=
    List.map_congr_left (fun i _ => chunk_group_eq c size.toNat i)
  refine ⟨(List.range (numChunks c.length size.toNat)).map
      (fun i => (c.drop (i * size.toNat)).take
        (min ((i + 1) * size.toNat) c.length - i * size.toNat)),
    ?_, ?_, ?_, ?_, ?_, ?_⟩
  · simp only [chunk, if_neg hnp]
  · rw [hre]
    exact flatten_chunks size.toNat hszn c.length c rfl
  · simp
  · intro i h hlast
    have hi : i + 1 < numChunks c.length size.toNat := by
      simpa using hlast
    have hkle : numChunks c.length size.toNat ≤ c.length / size.toNat + 1 := by
      unfold numChunks
      split <;> omega
    have hile : i + 1 ≤ c.length / size.toNat := by omega
    have hmul : (i + 1) * size.toNat ≤ c.length :=
      le_trans (Nat.mul_le_mul_right _ hile) (Nat.div_mul_le_self _ _)
    have hm : (i + 1) * size.toNat = i * size.toNat + size.toNat := by ring
    simp only [List.get_eq_getElem, List.getElem_map, List.getElem_range,
      List.length_take, List.length_drop]
    omega
  · intro g hg
    simp only [List.mem_map, List.mem_range] at hg
    obtain ⟨i, _, rfl⟩ := hg
    have hm : (i + 1) * size.toNat = i * size.toNat + size.toNat := by ring
    simp only [List.length_take, List.length_drop]
    omega
  · intro hnil
    subst hnil
    simp [numChunks]

theorem chunk_partitions_witness :
    (0 : Int) < 2 ∧
    ∃ r, chunk ([1, 2, 3, 4, 5] : List Nat) 2 = some r ∧
      r.flatten = [1, 2, 3, 4, 5] ∧
      r.length = numChunks ([1, 2, 3, 4, 5] : List Nat).length (2 : Int).toNat ∧
      (∀ i, (h : i < r.length) → i + 1 < r.length →
        (r.get ⟨i, h⟩).length = (2 : Int).toNat) ∧
      (∀ g ∈ r, g.length ≤ (2 : Int).toNat) ∧
      (([1, 2, 3, 4, 5] : List Nat) = [] → r = []) :=
  ⟨by decide, chunk_partitions [1, 2, 3, 4, 5] 2 (by decide)⟩

/-- C9: the source panics exactly on a non-positive size; with a positive
size the panic branch is unreachable and a value is always returned. -/
theorem chunk_nonpositive_panics {α : Type} (c : List α) (size : Int) :
    (size ≤ 0 → chunk c size = none) ∧
    (0 < size → chunk c size ≠ none) := by
  constructor
  · intro h
    simp [chunk, h]
  · intro h
    have hnp : ¬size ≤ 0 := by omega
    simp [chunk, hnp]

theorem chunk_nonpositive_panics_witness :
    chunk ([1, 2, 3] : List Nat) (-1) = none ∧
    chunk ([] : List Nat) 0 = none ∧
    chunk ([1, 2, 3] : List Nat) 2 ≠ none :=
  ⟨(chunk_nonpositive_panics [1, 2, 3] (-1)).1 (by decide),
   (chunk_nonpositive_panics ([] : List Nat) 0).1 (by decide),
   (chunk_nonpositive_panics [1, 2, 3] 2).2 (by decide)⟩

/-- C10: on an absent value `optionalPredicate` is the no-op predicate,
which leaves every selector unchanged (imposes no constraint), and its
result never depends on the builder function (the builder is not invoked);
on a present value it is exactly the builder applied to that value. -/
theorem optionalPredicate_spec {S T : Type} (fn g : T → S → S) (v : T) :
    optionalPredicate (none : Option T) fn = (NoOpSelector : S → S) ∧
    (∀ s : S, (NoOpSelector : S → S) s = s) ∧
    optionalPredicate (none : Option T) fn = optionalPredicate none g ∧
    optionalPredicate (some v) fn = fn v :=
  ⟨rfl, fun _ => rfl, rfl, rfl⟩

/-- The digest bytes of any hash state, written out. -/
theorem digestBytes_eq (hv : Words8) :
    digestBytes hv =
      [hv.w0 / 2 ^ 24 % 256, hv.w0 / 2 ^ 16 % 256, hv.w0 / 2 ^ 8 % 256, hv.w0 % 256,
       hv.w1 / 2 ^ 24 % 256, hv.w1 / 2 ^ 16 % 256, hv.w1 / 2 ^ 8 % 256, hv.w1 % 256,
       hv.w2 / 2 ^ 24 % 256, hv.w2 / 2 ^ 16 % 256, hv.w2 / 2 ^ 8 % 256, hv.w2 % 256,
       hv.w3 / 2 ^ 24 % 256, hv.w3 / 2 ^ 16 % 256, hv.w3 / 2 ^ 8 % 256, hv.w3 % 256,
       hv.w4 / 2 ^ 24 % 256, hv.w4 / 2 ^ 16 % 256, hv.w4 / 2 ^ 8 % 256, hv.w4 % 256,
       hv.w5 / 2 ^ 24 % 256, hv.w5 / 2 ^ 16 % 256, hv.w5 / 2 ^ 8 % 256, hv.w5 % 256,
       hv.w6 / 2 ^ 24 % 256, hv.w6 / 2 ^ 16 % 256, hv.w6 / 2 ^ 8 % 256, hv.w6 % 256,
       hv.w7 / 2 ^ 24 % 256, hv.w7 / 2 ^ 16 % 256, hv.w7 / 2 ^ 8 % 256, hv.w7 % 256] :=
  rfl

/-- An or of two bytes is a byte. -/
theorem lor_lt_256 {x y : Nat} (hx : x < 256) (hy : y < 256) :
    (x ||| y) < 256 := by
  have h := Nat.bitwise_lt (f := or) (n := 8) (by simpa using hx) (by simpa using hy)
  simpa using h

/-- The UUID produced from any digest state has 16 bytes, each below 256. -/
theorem uuidFromDigest_bytes (hv : Words8) :
    (uuidFromDigest (digestBytes hv)).length = 16 ∧
    ∀ x ∈ uuidFromDigest (digestBytes hv), x < 256 := by
  rw [digestBytes_eq, uuidFromDigest]
  refine ⟨rfl, ?_⟩
  intro x hx
  have h6 : ((hv.w1 / 2 ^ 8 % 256) &&& 0x0f) ||| (5 <<< 4) < 256 :=
    lor_lt_256 (by have := Nat.and_le_right (n := hv.w1 / 2 ^ 8 % 256) (m := 0x0f); omega)
      (by decide)
  have h8 : ((hv.w2 / 2 ^ 24 % 256) &&& 0x3f) ||| 0x80 < 256 :=
    lor_lt_256 (by have := Nat.and_le_right (n := hv.w2 / 2 ^ 24 % 256) (m := 0x3f); omega)
      (by decide)
  simp only [List.mem_cons, List.not_mem_nil, or_false] at hx
  rcases hx with rfl | rfl | rfl | rfl | rfl | rfl | rfl | rfl |
    rfl | rfl | rfl | rfl | rfl | rfl | rfl | rfl
  all_goals omega

/-- C2: `generateUUIDKey` is a deterministic total function of the byte
sequence alone — equal inputs (including the empty sequence) always yield
the identical result, a 128-bit identifier: 16 bytes, each below 256. -/
theorem generateUUIDKey_deterministic (b1 b2 : List Nat) (h : b1 = b2) :
    generateUUIDKey b1 = generateUUIDKey b2 ∧
    (generateUUIDKey b1).length = 16 ∧
    ∀ x ∈ generateUUIDKey b1, x < 256 := by
  subst h
  refine ⟨rfl, ?_, ?_⟩
  · exact (uuidFromDigest_bytes _).1
  · exact (uuidFromDigest_bytes _).2

theorem generateUUIDKey_deterministic_witness :
    generateUUIDKey [] = generateUUIDKey [] ∧
    (generateUUIDKey []).length = 16 ∧
    ∀ x ∈ generateUUIDKey [], x < 256 :=
  generateUUIDKey_deterministic [] [] rfl

end Guac
